import Mathlib

/-!
Verification of the fuzzy element-search core of the ndaValidator repository.

The source is a React component (two revisions of DataElementSearch, called
V1 and V2 below).  All string-manipulating JavaScript primitives used by the
component (toLowerCase, split, trim, startsWith, endsWith, includes, slice,
the word-boundary regex test) are embedded below as executable functions on
character lists, so that every definition evaluates inside the kernel.
JavaScript numbers are modelled as rationals for the V1 scorer (whose score
uses a division and ×0.1 dampening) and as integers for the V2 scorer
(whose arithmetic is integral).  Network interaction is modelled by an
oracle record mapping each endpoint to its (deterministic) response, with
none standing for a non-ok response; state updates of the component are
modelled as an explicit state record and, for the orchestrator, as the list
of state writes the execution performs.
-/

/-! ### JavaScript string primitives, embedded on character lists -/

/-- ASCII lower-casing of one character, as toLowerCase acts on the
catalog's ASCII data. -/
def lowerChar (c : Char) : Char :=
  if 'A' ≤ c ∧ c ≤ 'Z' then Char.ofNat (c.toNat + 32) else c

/-- Model of JavaScript String.prototype.toLowerCase. -/
def jsLower (s : String) : String := ⟨s.data.map lowerChar⟩

/-- Model of JavaScript String.prototype.split with a one-character
separator: always returns at least one (possibly empty) field. -/
def splitChar (sep : Char) : List Char → List (List Char)
  | [] => [[]]
  | c :: cs =>
    match splitChar sep cs with
    | [] => [[c]]
    | g :: gs => if c = sep then [] :: g :: gs else (c :: g) :: gs

/-- Split a string on the underscore delimiter, as name.split("_"). -/
def splitUnderscore (s : String) : List String :=
  (splitChar '_' s.data).map String.mk

/-- Occurrence test of w at offset i of t (substring equality). -/
def occursAt (t w : List Char) (i : Nat) : Bool :=
  decide (((t.drop i).take w.length) = w)

/-- Model of JavaScript String.prototype.includes. -/
def jsIncludes (s sub : String) : Bool :=
  (List.range (s.data.length + 1)).any fun i => occursAt s.data sub.data i

/-- Model of JavaScript String.prototype.startsWith. -/
def jsStartsWith (s pre : String) : Bool := pre.data.isPrefixOf s.data

/-- Model of JavaScript String.prototype.endsWith. -/
def jsEndsWith (s suf : String) : Bool := suf.data.isSuffixOf s.data

/-- Model of JavaScript String.prototype.slice(0, -1): drop the last
character. -/
def dropLastChar (s : String) : String := ⟨s.data.dropLast⟩

/-- Model of JavaScript String.prototype.trim. -/
def jsTrim (s : String) : String :=
  ⟨((s.data.dropWhile Char.isWhitespace).reverse.dropWhile Char.isWhitespace).reverse⟩

/-- Test for the regex /^\d+$/: nonempty and all decimal digits. -/
def isAllDigits (s : String) : Bool := !s.data.isEmpty && s.data.all Char.isDigit

/-- Model of JavaScript falsy-string defaulting, s || dflt. -/
def jsOr (s dflt : String) : String := if s = "" then dflt else s

/-! ### Word-boundary matching (V2 containsWord, part_000 lines 673-676)

The source interpolates the raw, unescaped word into
new RegExp("\b" + word + "\b", "i"), so the word is a regex pattern, not
a literal string.  The model below interprets the fragment of that
pattern language the interpolation produces for words made of ordinary
characters and the dot metacharacter: each ordinary character matches
itself (case-insensitively, the "i" flag) and the dot matches any
character except a line terminator; each pattern character consumes
exactly one text character.  Words containing other metacharacters
(quantifiers, groups, classes, alternation, escapes) — including ones
that make the pattern an invalid regex and throw at construction — are
outside the modelled fragment.  A regex \b matches between two positions
exactly when the word-character status (letter, digit or underscore, the
\w class) of the adjacent characters differs, with positions outside the
string counting as non-word. -/

/-- Word-character class of the JavaScript regex engine, \w. -/
def isWordChar (c : Char) : Bool :=
  ('a' ≤ c && c ≤ 'z') || ('A' ≤ c && c ≤ 'Z') || ('0' ≤ c && c ≤ '9') || c = '_'

/-- Word-character status of position i of t, false outside the string. -/
def wordCharAt (t : List Char) (i : Nat) : Bool :=
  match t.get? i with
  | some c => isWordChar c
  | none => false

/-- Word-character status of the position left of i. -/
def wordCharBefore (t : List Char) (i : Nat) : Bool :=
  match i with
  | 0 => false
  | j + 1 => wordCharAt t j

/-- Whether the regex boundary \b matches between positions i-1 and i. -/
def boundaryAt (t : List Char) (i : Nat) : Bool :=
  wordCharBefore t i != wordCharAt t i

/-- Characters with a special meaning in a regular expression — the very
set the source's own escapeRegExp helper escapes (part_000 lines 45-47),
which containsWord does NOT apply to the interpolated word. -/
def regexMeta : List Char :=
  ['.', '*', '+', '?', '^', '$', '\x7b', '\x7d', '(', ')', '|', '[', ']', '\\']

/-- Whether a word is free of regex metacharacters, checked on the
case-folded form the matcher uses (case-folding maps letters to letters,
so it neither creates nor destroys metacharacters).  For such a word the
interpolated pattern matches the word literally. -/
def regexLiteralWord (w : String) : Bool :=
  (w.data.map lowerChar).all fun c => !(regexMeta.contains c)

/-- Line terminators, which the dot metacharacter does not match. -/
def isLineTerminator (c : Char) : Bool :=
  c = '\n' || c = '\r' || c = '\u2028' || c = '\u2029'

/-- One pattern character against one text character: the dot matches
anything but a line terminator, every other character matches itself. -/
def patCharMatches (p c : Char) : Bool :=
  if p = '.' then !(isLineTerminator c) else p = c

/-- Match of a pattern against a prefix of the remaining text, one
character per pattern character. -/
def matchesPat : List Char → List Char → Bool
  | [], _ => true
  | _ :: _, [] => false
  | p :: ps, c :: cs => patCharMatches p c && matchesPat ps cs

/-- Match of the pattern at offset i of the text. -/
def matchesAt (t pat : List Char) (i : Nat) : Bool := matchesPat pat (t.drop i)

/-- Model of the source containsWord: the interpolated pattern matches
somewhere in the text with a \b boundary on each side, case-insensitively
(the "i" flag). -/
def containsWord (text word : String) : Bool :=
  let t := text.data.map lowerChar
  let w := word.data.map lowerChar
  (List.range (t.length + 1)).any fun i =>
    matchesAt t w i && boundaryAt t i && boundaryAt t (i + w.length)

/-! ### Levenshtein distance (V1, part_000 lines 79-96)

The source fills a dynamic-programming table with
track[j][i] = min(track[j][i-1] + 1, track[j-1][i] + 1,
track[j-1][i-1] + indicator) over prefixes of the two strings.  The
embedding below is the same recurrence read as a recursion peeling one
character at a time (the table of the source evaluates this recurrence
bottom-up); the inner function levRow2 handles the second string so that
the recursion is structural and kernel-evaluable. -/

/-- Inner recursion of the edit-distance recurrence: x :: xs against the
second list, with f giving distances of xs against suffixes. -/
def levRow2 (x : Char) (xs : List Char) (f : List Char → Nat) : List Char → Nat
  | [] => xs.length + 1
  | y :: ys =>
    min (min (levRow2 x xs f ys + 1) (f (y :: ys) + 1))
      (f ys + (if x = y then 0 else 1))

/-- Edit distance of two character lists by the recurrence of the source
table. -/
def levAux : List Char → List Char → Nat
  | [], ys => ys.length
  | x :: xs, ys => levRow2 x xs (levAux xs) ys

/-- Model of the source levenshteinDistance on strings. -/
def levenshteinDistance (str1 str2 : String) : Nat := levAux str1.data str2.data

@[simp] theorem levAux_nil_left (ys : List Char) : levAux [] ys = ys.length := rfl

@[simp] theorem levAux_nil_right (xs : List Char) : levAux xs [] = xs.length := by
  cases xs <;> simp [levAux, levRow2]

theorem levAux_cons_cons (x y : Char) (xs ys : List Char) :
    levAux (x :: xs) (y :: ys) =
      min (min (levAux (x :: xs) ys + 1) (levAux xs (y :: ys) + 1))
        (levAux xs ys + (if x = y then 0 else 1)) := by
  simp [levAux, levRow2]

theorem levAux_self (xs : List Char) : levAux xs xs = 0 := by
  induction xs with
  | nil => rfl
  | cons x xs ih => simp [levAux_cons_cons, ih]

theorem levAux_comm_aux :
    ∀ (n : Nat) (xs ys : List Char), xs.length + ys.length ≤ n →
      levAux xs ys = levAux ys xs := by
  intro n
  induction n with
  | zero =>
    intro xs ys h
    have hx : xs = [] := List.length_eq_zero.mp (by omega)
    have hy : ys = [] := List.length_eq_zero.mp (by omega)
    simp [hx, hy]
  | succ n ih =>
    intro xs ys h
    match xs, ys with
    | [], ys => simp
    | xs, [] => simp
    | x :: xs, y :: ys =>
      rw [levAux_cons_cons, levAux_cons_cons]
      have h1 : (x :: xs).length + ys.length ≤ n := by
        simp at h ⊢; omega
      have h2 : xs.length + (y :: ys).length ≤ n := by
        simp at h ⊢; omega
      have h3 : xs.length + ys.length ≤ n := by
        simp at h ⊢; omega
      rw [ih _ _ h1, ih _ _ h2, ih _ _ h3]
      have hind : (if x = y then 0 else 1) = (if y = x then 0 else 1) := by
        by_cases hxy : x = y <;> simp [hxy, Ne.symm, eq_comm]
      rw [hind]
      omega

theorem levAux_comm (xs ys : List Char) : levAux xs ys = levAux ys xs :=
  levAux_comm_aux (xs.length + ys.length) xs ys le_rfl

/-! ### Data elements

Fields of an upstream element actually read by the search core.  A missing
or empty upstream field reaches the code as a falsy value; jsOr models the
|| defaulting applied to it. -/

structure NDAElement where
  name : String
  type : String
  description : String
deriving DecidableEq

namespace V1

/-! ### V1 token-based relevance scorer (part_000 lines 98-148) -/

/-- Contribution of one query token: the best (smallest) edit distance to
any element-name token earns 100 when zero, 50/d when d ≤ 2, else
nothing.  An empty token list leaves the Infinity initialiser in place and
contributes nothing. -/
def tokenScore (searchPart : String) (elementParts : List String) : ℚ :=
  match (elementParts.map fun ep => levenshteinDistance searchPart ep).min? with
  | none => 0
  | some d => if d = 0 then 100 else if d ≤ 2 then 50 / (d : ℚ) else 0

/-- Model of the V1 calculateRelevance: perfect-match sentinel 1000,
per-token scores, prefix bonus, and the two ×0.1 dampening multipliers. -/
def calculateRelevance (element : NDAElement) (searchTerm : String) : ℚ :=
  let elementName := jsLower element.name
  let searchTermLower := jsLower searchTerm
  if elementName = searchTermLower then 1000
  else
    let elementParts := splitUnderscore elementName
    let searchParts := splitUnderscore searchTermLower
    let score0 : ℚ := (searchParts.map fun sp => tokenScore sp elementParts).sum
    let score1 := score0 + (if jsStartsWith elementName (searchTermLower ++ "_") then 500 else 0)
    let score2 := if isAllDigits elementName || isAllDigits searchTermLower then score1 * (1 / 10) else score1
    if !jsIncludes elementName searchTermLower then score2 * (1 / 10) else score2

theorem tokenScore_nonneg (sp : String) (eps : List String) : 0 ≤ tokenScore sp eps := by
  unfold tokenScore
  cases (eps.map fun ep => levenshteinDistance sp ep).min? with
  | none => simp
  | some d =>
    simp only
    split_ifs <;> positivity

theorem tokenScore_le (sp : String) (eps : List String) : tokenScore sp eps ≤ 100 := by
  unfold tokenScore
  cases (eps.map fun ep => levenshteinDistance sp ep).min? with
  | none => norm_num
  | some d =>
    simp only
    split_ifs with h0 h2
    · norm_num
    · have hd : (1 : ℚ) ≤ (d : ℚ) := by
        exact_mod_cast Nat.one_le_iff_ne_zero.mpr h0
      have h50 : 50 / (d : ℚ) ≤ 50 := div_le_self (by norm_num) hd
      linarith
    · norm_num

end V1

/-! ### Claim C7: algebraic properties of the edit distance -/

/-- C7: the edit-distance function returns 0 on equal strings, is
symmetric in its two arguments, and maps the pair (kitten, sitting)
to 3. -/
theorem c7_edit_distance_props :
    (∀ a : String, levenshteinDistance a a = 0) ∧
    (∀ a b : String, levenshteinDistance a b = levenshteinDistance b a) ∧
    levenshteinDistance "kitten" "sitting" = 3 :=
  ⟨fun a => levAux_self a.data, fun a b => levAux_comm a.data b.data, by decide⟩

/-! ### Claim C1: the perfect-match sentinel of the V1 scorer

An exact case-insensitive match returns the fixed score 1000, but the
sentinel is NOT strictly above every non-exact composite score: each of
the query tokens can contribute 100 and the prefix bonus adds 500, so a
query with five or more underscore-separated tokens can exceed 1000.  The
witness below scores 1100 on a non-exact match.  For queries of at most
four tokens the sentinel does dominate. -/

/-- Helper evaluation: a seven-token element name against the six-token
query it extends scores 600 (token bonuses) + 500 (prefix bonus). -/
theorem v1_score_six_tokens :
    V1.calculateRelevance ⟨"a_b_c_d_e_f_g", "", ""⟩ "a_b_c_d_e_f" = 1100 := by
  have hparts : splitUnderscore (jsLower "a_b_c_d_e_f") = ["a", "b", "c", "d", "e", "f"] := by decide
  have heparts : splitUnderscore (jsLower "a_b_c_d_e_f_g") = ["a", "b", "c", "d", "e", "f", "g"] := by decide
  have htok : ∀ sp ∈ (["a", "b", "c", "d", "e", "f"] : List String),
      V1.tokenScore sp ["a", "b", "c", "d", "e", "f", "g"] = 100 := by
    intro sp hsp
    unfold V1.tokenScore
    fin_cases hsp <;>
      first
      | (rw [show ((["a", "b", "c", "d", "e", "f", "g"] : List String).map
            fun ep => levenshteinDistance "a" ep).min? = some 0 from by decide]; norm_num)
      | (rw [show ((["a", "b", "c", "d", "e", "f", "g"] : List String).map
            fun ep => levenshteinDistance "b" ep).min? = some 0 from by decide]; norm_num)
      | (rw [show ((["a", "b", "c", "d", "e", "f", "g"] : List String).map
            fun ep => levenshteinDistance "c" ep).min? = some 0 from by decide]; norm_num)
      | (rw [show ((["a", "b", "c", "d", "e", "f", "g"] : List String).map
            fun ep => levenshteinDistance "d" ep).min? = some 0 from by decide]; norm_num)
      | (rw [show ((["a", "b", "c", "d", "e", "f", "g"] : List String).map
            fun ep => levenshteinDistance "e" ep).min? = some 0 from by decide]; norm_num)
      | (rw [show ((["a", "b", "c", "d", "e", "f", "g"] : List String).map
            fun ep => levenshteinDistance "f" ep).min? = some 0 from by decide]; norm_num)
  simp only [V1.calculateRelevance]
  rw [if_neg (by decide : ¬ jsLower "a_b_c_d_e_f_g" = jsLower "a_b_c_d_e_f")]
  rw [hparts, heparts]
  rw [List.map_congr_left htok]
  rw [if_pos (by decide : jsStartsWith (jsLower "a_b_c_d_e_f_g") (jsLower "a_b_c_d_e_f" ++ "_") = true)]
  rw [if_neg (by decide : ¬ ((!jsIncludes (jsLower "a_b_c_d_e_f_g") (jsLower "a_b_c_d_e_f")) = true))]
  rw [if_neg (by decide : ¬ ((isAllDigits (jsLower "a_b_c_d_e_f_g") || isAllDigits (jsLower "a_b_c_d_e_f")) = true))]
  simp
  norm_num

/-- C1 (refuted as stated): a non-exact match whose composite score is not
below the 1000 sentinel. -/
theorem c1_counterexample :
    jsLower (NDAElement.mk "a_b_c_d_e_f_g" "" "").name ≠ jsLower "a_b_c_d_e_f" ∧
    ¬ (V1.calculateRelevance ⟨"a_b_c_d_e_f_g", "", ""⟩ "a_b_c_d_e_f" < 1000) := by
  refine ⟨by decide, ?_⟩
  rw [v1_score_six_tokens]
  norm_num

/-- C1 (amended): an exact case-insensitive name match scores exactly the
fixed sentinel 1000, and for queries of at most four underscore-separated
tokens every non-exact match scores strictly below the sentinel. -/
theorem c1_sentinel_amended :
    (∀ (e : NDAElement) (q : String), jsLower e.name = jsLower q →
        V1.calculateRelevance e q = 1000) ∧
    (∀ (e : NDAElement) (q : String), jsLower e.name ≠ jsLower q →
        (splitUnderscore (jsLower q)).length ≤ 4 →
        V1.calculateRelevance e q < 1000) := by
  constructor
  · intro e q h
    simp only [V1.calculateRelevance]
    rw [if_pos h]
  · intro e q hne hk
    simp only [V1.calculateRelevance]
    rw [if_neg hne]
    set eps := splitUnderscore (jsLower e.name) with heps
    set qps := splitUnderscore (jsLower q) with hqps
    have hbound : ((qps.map fun sp => V1.tokenScore sp eps).sum : ℚ) ≤ 100 * qps.length := by
      calc (qps.map fun sp => V1.tokenScore sp eps).sum
          ≤ (qps.map fun sp => V1.tokenScore sp eps).length • (100 : ℚ) := by
            apply List.sum_le_card_nsmul
            intro x hx
            obtain ⟨sp, _, rfl⟩ := List.mem_map.mp hx
            exact V1.tokenScore_le sp eps
        _ = 100 * qps.length := by
            rw [List.length_map]
            rw [nsmul_eq_mul]
            ring
    have hnn : (0 : ℚ) ≤ (qps.map fun sp => V1.tokenScore sp eps).sum := by
      apply List.sum_nonneg
      intro x hx
      obtain ⟨sp, _, rfl⟩ := List.mem_map.mp hx
      exact V1.tokenScore_nonneg sp eps
    have hk4 : (qps.length : ℚ) ≤ 4 := by exact_mod_cast hk
    split_ifs <;> nlinarith [hbound, hnn, hk4]

/-! ### Generic finite-map and batching helpers

A JavaScript Map is modelled as an association list whose set method
updates an existing key in place (preserving its insertion position, as
Map does) and appends a new key at the end; values() is the list of second
components. -/

/-- Lookup in the association-list model of a Map. -/
def lookupMap {β : Type _} : List (String × β) → String → Option β
  | [], _ => none
  | p :: ps, k => if p.1 = k then some p.2 else lookupMap ps k

/-- Model of Map.prototype.set: replace in place or append. -/
def mapSet {β : Type _} : List (String × β) → String → β → List (String × β)
  | [], k, v => [(k, v)]
  | p :: ps, k, v => if p.1 = k then (k, v) :: ps else p :: mapSet ps k v

/-- Deduplication keeping first occurrences, as spreading a Set does. -/
def dedupAux (seen : List String) : List String → List String
  | [] => []
  | x :: xs => if x ∈ seen then dedupAux seen xs else x :: dedupAux (x :: seen) xs

/-- Model of the deduplication spread of new Set(list). -/
def dedupFirst (l : List String) : List String := dedupAux [] l

/-- Partition of a list into consecutive slices of 25 (the source batch
size), driven by a length fuel so the recursion is structural. -/
def makeBatchesAux {α : Type _} : Nat → List α → List (List α)
  | _, [] => []
  | 0, _ :: _ => []
  | fuel + 1, x :: xs =>
    ((x :: xs).take 25) :: makeBatchesAux fuel ((x :: xs).drop 25)

/-- Model of the batching loop of the source (slices of size 25). -/
def makeBatches {α : Type _} (l : List α) : List (List α) := makeBatchesAux l.length l

namespace V2

/-! ### The V2 fuzzy search (part_000 lines 625-944) -/

/-- Match-type classification of one element against the query. -/
inductive MatchType where
  | both
  | name
  | description
deriving DecidableEq

/-- A match record as built by findElementsByPattern. -/
structure MatchRecord where
  name : String
  type : String
  description : String
  sourceStructure : String
  matchType : MatchType
  relevance : Int
deriving DecidableEq

/-- Detail payload returned by the exact element-lookup endpoint; the
component stores it unexamined, so only its identity matters here. -/
structure ElementDetail where
  name : String
deriving DecidableEq

/-- One entry of a structure-search or category-listing response. -/
structure StructInfo where
  shortName : String
deriving DecidableEq

/-- The upstream service, as a deterministic response table; none models a
non-ok response. -/
structure Oracle where
  exactLookup : String → Option ElementDetail
  structSearch : String → Option (List StructInfo)
  categoryList : Option (List StructInfo)
  structDetail : String → Option (List NDAElement)

/-- Model of the V2 calculateRelevance (part_000 lines 848-867): tiered
base score by match type, exact-name and starts-with bonuses, and a capped
length-difference penalty. -/
def calculateRelevance (element : NDAElement) (searchTerm : String) (matchType : MatchType) : Int :=
  let base : Int :=
    match matchType with
    | .both => 100
    | .name => 75
    | .description => 25
  let withExact := base + (if jsLower element.name = searchTerm then 50 else 0)
  let withStarts := withExact + (if jsStartsWith (jsLower element.name) searchTerm then 25 else 0)
  let lengthDiff := ((element.name.data.length : Int) - (searchTerm.data.length : Int)).natAbs
  withStarts - (min lengthDiff 10 : Nat)

/-- Model of the singular/plural search-word augmentation (part_000 lines
779-784). -/
def searchWords (searchTerm : String) : List String :=
  if jsEndsWith searchTerm "s" then [searchTerm, dropLastChar searchTerm]
  else [searchTerm, searchTerm ++ "s"]

/-- The match record the scan writes for one element, none when the
word-boundary test fails on both name and description (part_000 lines
771-825). -/
def matchRecordFor (searchTerm shortName : String) (e : NDAElement) : Option MatchRecord :=
  let elementName := jsLower e.name
  let elementDesc := jsLower e.description
  let words := searchWords searchTerm
  let nameMatch := words.any fun w => containsWord elementName w
  let descMatch := words.any fun w => containsWord elementDesc w
  if nameMatch || descMatch then
    let mt : MatchType :=
      if nameMatch && descMatch then .both else if nameMatch then .name else .description
    some
      { name := e.name
        type := jsOr e.type "Unknown"
        description := jsOr e.description "No description available"
        sourceStructure := shortName
        matchType := mt
        relevance := calculateRelevance e searchTerm mt }
  else none

/-- Scan of one fetched structure: write a record into foundElements for
every matching element. -/
def scanElements (searchTerm shortName : String) (found : List (String × MatchRecord))
    (els : List NDAElement) : List (String × MatchRecord) :=
  els.foldl
    (fun f e =>
      match matchRecordFor searchTerm shortName e with
      | some r => mapSet f e.name r
      | none => f)
    found

/-- Cache and network trace of one findElementsByPattern invocation; the
structureCache Map is created inside the function, so this state is local
to a single invocation. -/
structure FetchState where
  cache : List (String × List NDAElement)
  trace : List String
deriving DecidableEq

/-- Model of one batch item (part_000 lines 743-765): serve from the
per-invocation cache, else fetch, caching responses below the 1000-element
threshold; a non-ok response yields none and contributes nothing. -/
def fetchStructure (o : Oracle) (st : FetchState) (shortName : String) :
    FetchState × Option (String × List NDAElement) :=
  match lookupMap st.cache shortName with
  | some els => (st, some (shortName, els))
  | none =>
    let st1 : FetchState := { st with trace := st.trace ++ [shortName] }
    match o.structDetail shortName with
    | none => (st1, none)
    | some els =>
      let cache1 := if els.length < 1000 then mapSet st1.cache shortName els else st1.cache
      ({ cache := cache1, trace := st1.trace }, some (shortName, els))

/-- Model of one batch: fetch every short name, keeping the successful
results in order (Promise.all followed by filter(Boolean)). -/
def runBatch (o : Oracle) (st : FetchState) (batch : List String) :
    FetchState × List (String × List NDAElement) :=
  batch.foldl
    (fun acc s =>
      let step := fetchStructure o acc.1 s
      (step.1, acc.2 ++ step.2.toList))
    (st, [])

/-- Accumulated state of the batch loop. -/
structure AggState where
  fetchState : FetchState
  found : List (String × MatchRecord)

/-- The batch loop of findElementsByPattern: fetch a batch, then scan its
results into foundElements. -/
def runBatches (o : Oracle) (searchTerm : String) (batches : List (List String)) : AggState :=
  batches.foldl
    (fun ag batch =>
      let fetched := runBatch o ag.fetchState batch
      let found1 := fetched.2.foldl (fun f p => scanElements searchTerm p.1 f p.2) ag.found
      { fetchState := fetched.1, found := found1 })
    { fetchState := { cache := [], trace := [] }, found := [] }

/-- Candidate discovery (part_000 lines 692-715): keyword search plus the
cognitive_task category listing, flattened and deduplicated. -/
def discoverIds (o : Oracle) (searchTerm : String) : List String :=
  let structureArrays := (o.structSearch searchTerm).toList ++ o.categoryList.toList
  dedupFirst ((structureArrays.flatten).map fun s => s.shortName)

/-- Stable insertion of a record into a list sorted by descending
relevance: the record goes after every earlier record of greater or equal
relevance. -/
def insertRecord (r : MatchRecord) : List MatchRecord → List MatchRecord
  | [] => [r]
  | x :: xs => if x.relevance < r.relevance then r :: x :: xs else x :: insertRecord r xs

/-- Model of Array.prototype.sort with comparator (a, b) => b.relevance -
a.relevance: sort is required to be stable and comparator-consistent, so
its output is the stable descending order computed here. -/
def sortByRelevance (l : List MatchRecord) : List MatchRecord :=
  l.foldl (fun acc r => insertRecord r acc) []

/-- Model of findElementsByPattern (part_000 lines 678-845): lower-case
the term, discover candidate structures, process them in batches of 25,
and return the found records sorted by descending relevance, together
with the trace of structure-detail fetches the invocation issued. -/
def findElementsByPattern (o : Oracle) (term : String) : List MatchRecord × List String :=
  let searchTerm := jsLower term
  let ids := discoverIds o searchTerm
  let ag := runBatches o searchTerm (makeBatches ids)
  (sortByRelevance (ag.found.map fun p => p.2), ag.fetchState.trace)

end V2

/-! ### Lemmas about the Map model -/

theorem lookupMap_mapSet_self {β : Type _} (m : List (String × β)) (k : String) (v : β) :
    lookupMap (mapSet m k v) k = some v := by
  induction m with
  | nil => simp [mapSet, lookupMap]
  | cons p ps ih =>
    by_cases h : p.1 = k
    · simp [mapSet, lookupMap, h]
    · simp [mapSet, lookupMap, h, ih]

theorem lookupMap_mapSet_ne {β : Type _} (m : List (String × β)) {k k' : String} (v : β)
    (h : k' ≠ k) : lookupMap (mapSet m k v) k' = lookupMap m k' := by
  induction m with
  | nil =>
    simp only [mapSet, lookupMap]
    rw [if_neg (fun hh : k = k' => h hh.symm)]
  | cons p ps ih =>
    by_cases hp : p.1 = k
    · simp only [mapSet, if_pos hp, lookupMap]
      rw [if_neg (fun hh : k = k' => h hh.symm),
        if_neg (fun hh : p.1 = k' => h (hh.symm.trans hp))]
    · simp only [mapSet, if_neg hp, lookupMap]
      by_cases hp' : p.1 = k'
      · rw [if_pos hp', if_pos hp']
      · rw [if_neg hp', if_neg hp', ih]

theorem mem_mapSet {β : Type _} (m : List (String × β)) (k : String) (v : β) :
    ∀ p ∈ mapSet m k v, p ∈ m ∨ p = (k, v) := by
  induction m with
  | nil => simp [mapSet]
  | cons q ps ih =>
    intro p hp
    by_cases h : q.1 = k
    · simp only [mapSet, if_pos h, List.mem_cons] at hp
      rcases hp with hp | hp
      · right; exact hp
      · left; exact List.mem_cons_of_mem _ hp
    · simp only [mapSet, if_neg h, List.mem_cons] at hp
      rcases hp with hp | hp
      · left; exact hp ▸ List.mem_cons_self _ _
      · rcases ih p hp with h1 | h1
        · left; exact List.mem_cons_of_mem _ h1
        · right; exact h1

theorem keys_mapSet_mem {β : Type _} (m : List (String × β)) (k : String) (v : β)
    (h : k ∈ m.map Prod.fst) : (mapSet m k v).map Prod.fst = m.map Prod.fst := by
  induction m with
  | nil => simp at h
  | cons p ps ih =>
    by_cases hp : p.1 = k
    · simp [mapSet, hp]
    · simp only [List.map_cons, List.mem_cons] at h
      rcases h with h | h
      · exact absurd h.symm hp
      · simp [mapSet, hp, ih h]

theorem keys_mapSet_not_mem {β : Type _} (m : List (String × β)) (k : String) (v : β)
    (h : k ∉ m.map Prod.fst) : mapSet m k v = m ++ [(k, v)] := by
  induction m with
  | nil => simp [mapSet]
  | cons p ps ih =>
    simp only [List.map_cons, List.mem_cons] at h
    push_neg at h
    simp [mapSet, Ne.symm h.1, ih h.2]

theorem nodup_keys_mapSet {β : Type _} (m : List (String × β)) (k : String) (v : β)
    (h : (m.map Prod.fst).Nodup) : ((mapSet m k v).map Prod.fst).Nodup := by
  by_cases hk : k ∈ m.map Prod.fst
  · rw [keys_mapSet_mem m k v hk]; exact h
  · rw [keys_mapSet_not_mem m k v hk]
    simp only [List.map_append, List.map_cons, List.map_nil]
    rw [List.nodup_append]
    exact ⟨h, List.nodup_singleton _,
      fun a ha hak => hk ((List.mem_singleton.mp hak) ▸ ha)⟩

theorem lookupMap_of_mem {β : Type _} {m : List (String × β)} {k : String} {v : β}
    (hnd : (m.map Prod.fst).Nodup) (h : (k, v) ∈ m) : lookupMap m k = some v := by
  induction m with
  | nil => simp at h
  | cons p ps ih =>
    simp only [List.map_cons, List.nodup_cons] at hnd
    rcases List.mem_cons.mp h with h | h
    · simp [lookupMap, ← h]
    · have hk : p.1 ≠ k := by
        intro he
        exact hnd.1 (he ▸ List.mem_map.mpr ⟨(k, v), h, rfl⟩)
      simp [lookupMap, hk, ih hnd.2 h]

theorem mem_of_lookupMap {β : Type _} {m : List (String × β)} {k : String} {v : β}
    (h : lookupMap m k = some v) : (k, v) ∈ m := by
  induction m with
  | nil => simp [lookupMap] at h
  | cons p ps ih =>
    by_cases hp : p.1 = k
    · simp only [lookupMap, if_pos hp] at h
      injection h with h2
      exact List.mem_cons.mpr (Or.inl (Prod.ext hp.symm h2.symm))
    · simp only [lookupMap, if_neg hp] at h
      exact List.mem_cons_of_mem _ (ih h)

/-- Folding a write list into the Map, as the repeated set calls of the
scan do. -/
theorem lookupMap_writeFold {β : Type _} (ws : List (String × β)) (m : List (String × β))
    (k : String) :
    lookupMap (ws.foldl (fun f p => mapSet f p.1 p.2) m) k =
      ((ws.filter fun p => p.1 = k).getLast?).elim (lookupMap m k) (fun p => some p.2) := by
  induction ws using List.reverseRecOn generalizing m with
  | nil => simp
  | append_singleton ws w ih =>
    rw [List.foldl_append, List.foldl_cons, List.foldl_nil, List.filter_append]
    by_cases hw : w.1 = k
    · have hfw : List.filter (fun p => decide (p.1 = k)) [w] = [w] := by simp [hw]
      rw [hfw, List.getLast?_concat, hw, lookupMap_mapSet_self]
      rfl
    · have hfw : List.filter (fun p => decide (p.1 = k)) [w] = [] := by simp [hw]
      rw [hfw, List.append_nil,
        lookupMap_mapSet_ne _ _ (fun hh : k = w.1 => hw hh.symm), ih]

theorem nodup_keys_writeFold {β : Type _} (ws : List (String × β)) (m : List (String × β))
    (hnd : (m.map Prod.fst).Nodup) :
    (((ws.foldl (fun f p => mapSet f p.1 p.2) m)).map Prod.fst).Nodup := by
  induction ws generalizing m with
  | nil => exact hnd
  | cons w ws ih => exact ih _ (nodup_keys_mapSet _ _ _ hnd)

theorem mem_writeFold {β : Type _} (ws : List (String × β)) (m : List (String × β)) :
    ∀ p ∈ ws.foldl (fun f p => mapSet f p.1 p.2) m, p ∈ m ∨ p ∈ ws := by
  induction ws generalizing m with
  | nil => exact fun p hp => Or.inl hp
  | cons w ws ih =>
    intro p hp
    rcases ih _ p hp with h | h
    · rcases mem_mapSet _ _ _ p h with h1 | h1
      · exact Or.inl h1
      · exact Or.inr (h1 ▸ List.mem_cons_self _ _)
    · exact Or.inr (List.mem_cons_of_mem _ h)

/-! ### Lemmas about deduplication and batching -/

theorem dedupAux_not_mem_seen : ∀ (l seen : List String), ∀ x ∈ dedupAux seen l, x ∉ seen := by
  intro l
  induction l with
  | nil => intro seen x hx; simp [dedupAux] at hx
  | cons a l ih =>
    intro seen x hx
    by_cases ha : a ∈ seen
    · exact ih seen x (by simpa [dedupAux, ha] using hx)
    · simp only [dedupAux, if_neg ha, List.mem_cons] at hx
      rcases hx with rfl | hx
      · exact ha
      · exact fun hs => ih _ x hx (List.mem_cons_of_mem _ hs)

theorem dedupAux_nodup : ∀ (l seen : List String), (dedupAux seen l).Nodup := by
  intro l
  induction l with
  | nil => intro seen; simp [dedupAux]
  | cons a l ih =>
    intro seen
    by_cases ha : a ∈ seen
    · simpa [dedupAux, ha] using ih seen
    · simp only [dedupAux, if_neg ha, List.nodup_cons]
      exact ⟨fun hx => dedupAux_not_mem_seen l (a :: seen) a hx (List.mem_cons_self _ _), ih _⟩

theorem dedupFirst_nodup (l : List String) : (dedupFirst l).Nodup := dedupAux_nodup l []

theorem makeBatchesAux_flatten {α : Type _} :
    ∀ (fuel : Nat) (l : List α), l.length ≤ fuel → (makeBatchesAux fuel l).flatten = l := by
  intro fuel
  induction fuel with
  | zero =>
    intro l h
    cases l with
    | nil => rfl
    | cons x xs => simp at h
  | succ fuel ih =>
    intro l h
    cases l with
    | nil => rfl
    | cons x xs =>
      simp only [makeBatchesAux, List.flatten_cons]
      rw [ih ((x :: xs).drop 25) (by simp at h ⊢; omega)]
      exact List.take_append_drop 25 (x :: xs)

theorem makeBatches_flatten {α : Type _} (l : List α) : (makeBatches l).flatten = l :=
  makeBatchesAux_flatten l.length l le_rfl

namespace V2

/-! ### Characterisation of the batch loop

The candidate list is deduplicated before batching, so within one
invocation no short name is ever looked up twice: the local cache never
serves a hit, every candidate is fetched exactly once, and the writes into
foundElements are exactly the matching elements of the successfully
fetched structures, in candidate order. -/

/-- The write sequence one structure contributes to foundElements. -/
def structWrites (o : Oracle) (searchTerm : String) (s : String) :
    List (String × MatchRecord) :=
  match o.structDetail s with
  | none => []
  | some els => els.filterMap fun e => (matchRecordFor searchTerm s e).map fun r => (e.name, r)

/-- The full write sequence of one invocation over a candidate list. -/
def writesFor (o : Oracle) (searchTerm : String) (ids : List String) :
    List (String × MatchRecord) :=
  ids.flatMap fun s => structWrites o searchTerm s

theorem writesFor_append (o : Oracle) (q : String) (l1 l2 : List String) :
    writesFor o q (l1 ++ l2) = writesFor o q l1 ++ writesFor o q l2 := by
  simp [writesFor]

theorem writesFor_name_eq_key (o : Oracle) (q : String) (ids : List String) :
    ∀ p ∈ writesFor o q ids, p.2.name = p.1 := by
  intro p hp
  simp only [writesFor, List.mem_flatMap] at hp
  obtain ⟨s, _, hps⟩ := hp
  simp only [structWrites] at hps
  cases hdet : o.structDetail s with
  | none => rw [hdet] at hps; simp at hps
  | some els =>
    rw [hdet] at hps
    simp only [List.mem_filterMap] at hps
    obtain ⟨e, _, he⟩ := hps
    cases hr : matchRecordFor q s e with
    | none => rw [hr] at he; simp at he
    | some r =>
      rw [hr] at he
      simp only [Option.map_some'] at he
      cases he
      have : r.name = e.name := by
        simp only [matchRecordFor] at hr
        split_ifs at hr
        all_goals (injection hr with hr2; rw [← hr2])
      simpa using this

theorem scanElements_eq (q s : String) (els : List NDAElement)
    (f : List (String × MatchRecord)) :
    scanElements q s f els =
      (els.filterMap fun e => (matchRecordFor q s e).map fun r => (e.name, r)).foldl
        (fun f p => mapSet f p.1 p.2) f := by
  induction els generalizing f with
  | nil => rfl
  | cons e es ih =>
    simp only [scanElements, List.foldl_cons, List.filterMap_cons]
    cases hr : matchRecordFor q s e with
    | none => simpa [hr] using ih f
    | some r => simpa [hr] using ih (mapSet f e.name r)

theorem scanResults_eq (q : String) :
    ∀ (results : List (String × List NDAElement)) (f : List (String × MatchRecord)),
      results.foldl (fun f p => scanElements q p.1 f p.2) f =
        (results.flatMap fun p =>
            p.2.filterMap fun e => (matchRecordFor q p.1 e).map fun r => (e.name, r)).foldl
          (fun f p => mapSet f p.1 p.2) f := by
  intro results
  induction results with
  | nil => intro f; rfl
  | cons p ps ih =>
    intro f
    simp only [List.foldl_cons, List.flatMap_cons, List.foldl_append]
    rw [scanElements_eq, ih]

theorem filterMap_structWrites (o : Oracle) (q : String) :
    ∀ batch : List String,
      ((batch.filterMap fun s => (o.structDetail s).map fun els => (s, els)).flatMap
          fun p => p.2.filterMap fun e => (matchRecordFor q p.1 e).map fun r => (e.name, r)) =
        writesFor o q batch := by
  intro batch
  induction batch with
  | nil => rfl
  | cons s ss ih =>
    simp only [List.filterMap_cons]
    cases hdet : o.structDetail s with
    | none => simp only [writesFor, List.flatMap_cons, structWrites, hdet]; simpa [writesFor] using ih
    | some els =>
      simp only [Option.map_some', List.flatMap_cons]
      rw [ih]
      simp only [writesFor, List.flatMap_cons, structWrites, hdet]

theorem fetchStructure_spec (o : Oracle) (st : FetchState) (s : String)
    (hmiss : lookupMap st.cache s = none) :
    (fetchStructure o st s).1.trace = st.trace ++ [s] ∧
    (fetchStructure o st s).2 = (o.structDetail s).map (fun els => (s, els)) ∧
    (∀ s', s' ≠ s → lookupMap (fetchStructure o st s).1.cache s' = lookupMap st.cache s') := by
  simp only [fetchStructure, hmiss]
  cases hdet : o.structDetail s with
  | none => exact ⟨rfl, rfl, fun s' _ => rfl⟩
  | some els =>
    refine ⟨rfl, rfl, fun s' hne => ?_⟩
    by_cases hlen : els.length < 1000
    · simp only [if_pos hlen]
      exact lookupMap_mapSet_ne _ _ hne
    · simp only [if_neg hlen]

theorem runBatch_go (o : Oracle) :
    ∀ (batch : List String) (st : FetchState) (acc : List (String × List NDAElement)),
      batch.Nodup → (∀ s ∈ batch, lookupMap st.cache s = none) →
      (batch.foldl
          (fun acc s =>
            let step := fetchStructure o acc.1 s
            (step.1, acc.2 ++ step.2.toList))
          (st, acc)).1.trace = st.trace ++ batch ∧
      (batch.foldl
          (fun acc s =>
            let step := fetchStructure o acc.1 s
            (step.1, acc.2 ++ step.2.toList))
          (st, acc)).2 =
        acc ++ batch.filterMap (fun s => (o.structDetail s).map fun els => (s, els)) ∧
      (∀ s', lookupMap st.cache s' = none → s' ∉ batch →
        lookupMap (batch.foldl
            (fun acc s =>
              let step := fetchStructure o acc.1 s
              (step.1, acc.2 ++ step.2.toList))
            (st, acc)).1.cache s' = none) := by
  intro batch
  induction batch with
  | nil => exact fun st acc _ _ => ⟨by simp, by simp, fun s' h _ => h⟩
  | cons s rest ih =>
    intro st acc hnd hmiss
    have hs := fetchStructure_spec o st s (hmiss s (List.mem_cons_self _ _))
    simp only [List.nodup_cons] at hnd
    have hmiss1 : ∀ x ∈ rest, lookupMap (fetchStructure o st s).1.cache x = none := by
      intro x hx
      rw [hs.2.2 x (fun he => hnd.1 (he ▸ hx))]
      exact hmiss x (List.mem_cons_of_mem _ hx)
    have hrec := ih (fetchStructure o st s).1 (acc ++ (fetchStructure o st s).2.toList)
      hnd.2 hmiss1
    simp only [List.foldl_cons]
    refine ⟨?_, ?_, ?_⟩
    · rw [hrec.1, hs.1, List.append_assoc]
      rfl
    · rw [hrec.2.1, hs.2.1, List.filterMap_cons]
      cases o.structDetail s <;> simp
    · intro s' hnone hmem
      have hne : s' ≠ s := fun he => hmem (he ▸ List.mem_cons_self _ _)
      exact hrec.2.2 s' (by rw [hs.2.2 s' hne]; exact hnone)
        (fun hm => hmem (List.mem_cons_of_mem _ hm))

end V2

namespace V2

theorem runBatch_spec (o : Oracle) (st : FetchState) (batch : List String)
    (hnd : batch.Nodup) (hmiss : ∀ s ∈ batch, lookupMap st.cache s = none) :
    (runBatch o st batch).1.trace = st.trace ++ batch ∧
    (runBatch o st batch).2 =
      batch.filterMap (fun s => (o.structDetail s).map fun els => (s, els)) ∧
    (∀ s', lookupMap st.cache s' = none → s' ∉ batch →
      lookupMap (runBatch o st batch).1.cache s' = none) := by
  have h := runBatch_go o batch st [] hnd hmiss
  exact ⟨h.1, by simpa using h.2.1, h.2.2⟩

theorem runBatches_spec (o : Oracle) (q : String) :
    ∀ (batches : List (List String)) (ag : AggState),
      batches.flatten.Nodup →
      (∀ s ∈ batches.flatten, lookupMap ag.fetchState.cache s = none) →
      (batches.foldl
          (fun ag batch =>
            let fetched := runBatch o ag.fetchState batch
            let found1 := fetched.2.foldl (fun f p => scanElements q p.1 f p.2) ag.found
            { fetchState := fetched.1, found := found1 }) ag).fetchState.trace =
        ag.fetchState.trace ++ batches.flatten ∧
      (batches.foldl
          (fun ag batch =>
            let fetched := runBatch o ag.fetchState batch
            let found1 := fetched.2.foldl (fun f p => scanElements q p.1 f p.2) ag.found
            { fetchState := fetched.1, found := found1 }) ag).found =
        (writesFor o q batches.flatten).foldl (fun f p => mapSet f p.1 p.2) ag.found ∧
      (∀ s', lookupMap ag.fetchState.cache s' = none → s' ∉ batches.flatten →
        lookupMap (batches.foldl
            (fun ag batch =>
              let fetched := runBatch o ag.fetchState batch
              let found1 := fetched.2.foldl (fun f p => scanElements q p.1 f p.2) ag.found
              { fetchState := fetched.1, found := found1 }) ag).fetchState.cache s' = none) := by
  intro batches
  induction batches with
  | nil =>
    intro ag _ _
    refine ⟨by simp, by simp [writesFor], fun s' h _ => h⟩
  | cons b bs ih =>
    intro ag hnd hmiss
    simp only [List.flatten_cons] at hnd hmiss
    rw [List.nodup_append] at hnd
    obtain ⟨hndb, hndbs, hdisj⟩ := hnd
    have hmissb : ∀ s ∈ b, lookupMap ag.fetchState.cache s = none := fun s hs =>
      hmiss s (List.mem_append.mpr (Or.inl hs))
    have hb := runBatch_spec o ag.fetchState b hndb hmissb
    simp only [List.foldl_cons]
    set ag1 : AggState :=
      { fetchState := (runBatch o ag.fetchState b).1
        found := (runBatch o ag.fetchState b).2.foldl
          (fun f p => scanElements q p.1 f p.2) ag.found } with hag1
    have hmissbs : ∀ s ∈ bs.flatten, lookupMap ag1.fetchState.cache s = none := by
      intro s hs
      exact hb.2.2 s (hmiss s (List.mem_append.mpr (Or.inr hs))) (fun hsb => hdisj hsb hs)
    have hrec := ih ag1 hndbs hmissbs
    refine ⟨?_, ?_, ?_⟩
    · rw [hrec.1, hag1]
      simp only [List.flatten_cons]
      rw [hb.1, List.append_assoc]
    · rw [hrec.2.1, hag1]
      simp only [List.flatten_cons]
      rw [writesFor_append, List.foldl_append]
      have hfound : (runBatch o ag.fetchState b).2.foldl
          (fun f p => scanElements q p.1 f p.2) ag.found =
          (writesFor o q b).foldl (fun f p => mapSet f p.1 p.2) ag.found := by
        rw [scanResults_eq, hb.2.1, filterMap_structWrites]
      rw [hfound]
    · intro s' hnone hmem
      simp only [List.flatten_cons, List.mem_append] at hmem
      push_neg at hmem
      exact hrec.2.2 s' (hb.2.2 s' hnone hmem.1) hmem.2

theorem discoverIds_nodup (o : Oracle) (q : String) : (discoverIds o q).Nodup :=
  dedupFirst_nodup _

theorem runBatches_eq (o : Oracle) (q : String) (batches : List (List String))
    (hnd : batches.flatten.Nodup) :
    (runBatches o q batches).fetchState.trace = batches.flatten ∧
    (runBatches o q batches).found =
      (writesFor o q batches.flatten).foldl (fun f p => mapSet f p.1 p.2) [] := by
  have h := runBatches_spec o q batches
    { fetchState := { cache := [], trace := [] }, found := [] } hnd (fun s _ => rfl)
  exact ⟨by simpa using h.1, h.2.1⟩

/-- The per-invocation network trace is exactly the deduplicated candidate
list: every candidate is fetched exactly once. -/
theorem findElementsByPattern_trace (o : Oracle) (term : String) :
    (findElementsByPattern o term).2 = discoverIds o (jsLower term) := by
  simp only [findElementsByPattern]
  rw [(runBatches_eq o (jsLower term) (makeBatches (discoverIds o (jsLower term)))
    (by rw [makeBatches_flatten]; exact discoverIds_nodup o _)).1]
  exact makeBatches_flatten _

/-- The foundElements Map at the end of the batch loop is the fold of the
write sequence. -/
theorem runBatches_found_eq (o : Oracle) (term : String) :
    (runBatches o (jsLower term) (makeBatches (discoverIds o (jsLower term)))).found =
      (writesFor o (jsLower term) (discoverIds o (jsLower term))).foldl
        (fun f p => mapSet f p.1 p.2) [] := by
  rw [(runBatches_eq o (jsLower term) (makeBatches (discoverIds o (jsLower term)))
    (by rw [makeBatches_flatten]; exact discoverIds_nodup o _)).2,
    makeBatches_flatten]

end V2

namespace V2

/-! ### Lemmas about the stable descending sort -/

theorem mem_insertRecord (r : MatchRecord) :
    ∀ (l : List MatchRecord) (a : MatchRecord), a ∈ insertRecord r l ↔ a = r ∨ a ∈ l := by
  intro l
  induction l with
  | nil => intro a; simp [insertRecord]
  | cons x xs ih =>
    intro a
    by_cases hx : x.relevance < r.relevance
    · simp [insertRecord, hx]
    · simp only [insertRecord, if_neg hx, List.mem_cons, ih]
      tauto

theorem insertRecord_perm (r : MatchRecord) :
    ∀ l : List MatchRecord, (insertRecord r l).Perm (r :: l) := by
  intro l
  induction l with
  | nil => simp [insertRecord]
  | cons x xs ih =>
    by_cases hx : x.relevance < r.relevance
    · simp [insertRecord, hx]
    · simp only [insertRecord, if_neg hx]
      exact (List.Perm.cons x ih).trans (List.Perm.swap r x xs)

theorem sortByRelevance_perm_aux :
    ∀ (l acc : List MatchRecord),
      (l.foldl (fun acc r => insertRecord r acc) acc).Perm (acc ++ l) := by
  intro l
  induction l with
  | nil => intro acc; simp
  | cons x xs ih =>
    intro acc
    simp only [List.foldl_cons]
    refine (ih (insertRecord x acc)).trans ?_
    refine (List.Perm.append_right xs (insertRecord_perm x acc)).trans ?_
    exact List.perm_middle.symm

theorem sortByRelevance_perm (l : List MatchRecord) : (sortByRelevance l).Perm l := by
  simpa using sortByRelevance_perm_aux l []

theorem insertRecord_sorted (r : MatchRecord) :
    ∀ l : List MatchRecord, l.Pairwise (fun a b => b.relevance ≤ a.relevance) →
      (insertRecord r l).Pairwise (fun a b => b.relevance ≤ a.relevance) := by
  intro l
  induction l with
  | nil => intro _; simp [insertRecord]
  | cons x xs ih =>
    intro h
    rw [List.pairwise_cons] at h
    by_cases hx : x.relevance < r.relevance
    · simp only [insertRecord, if_pos hx]
      rw [List.pairwise_cons]
      constructor
      · intro b hb
        rcases List.mem_cons.mp hb with rfl | hb
        · omega
        · have := h.1 b hb
          omega
      · rw [List.pairwise_cons]
        exact h
    · simp only [insertRecord, if_neg hx]
      rw [List.pairwise_cons]
      constructor
      · intro b hb
        rcases (mem_insertRecord r xs b).mp hb with rfl | hb
        · omega
        · exact h.1 b hb
      · exact ih h.2

theorem sortByRelevance_sorted (l : List MatchRecord) :
    (sortByRelevance l).Pairwise (fun a b => b.relevance ≤ a.relevance) := by
  have haux : ∀ (l acc : List MatchRecord),
      acc.Pairwise (fun a b => b.relevance ≤ a.relevance) →
      (l.foldl (fun acc r => insertRecord r acc) acc).Pairwise
        (fun a b => b.relevance ≤ a.relevance) := by
    intro l
    induction l with
    | nil => exact fun acc h => h
    | cons x xs ih =>
      intro acc h
      exact ih (insertRecord x acc) (insertRecord_sorted x acc h)
  exact haux l [] (by simp)

theorem insertRecord_filter (r : MatchRecord) (s : Int) :
    ∀ l : List MatchRecord, l.Pairwise (fun a b => b.relevance ≤ a.relevance) →
      (insertRecord r l).filter (fun a => a.relevance = s) =
        if r.relevance = s then l.filter (fun a => a.relevance = s) ++ [r]
        else l.filter (fun a => a.relevance = s) := by
  intro l
  induction l with
  | nil =>
    intro _
    by_cases hr : r.relevance = s <;> simp [insertRecord, List.filter_cons, hr]
  | cons x xs ih =>
    intro h
    rw [List.pairwise_cons] at h
    by_cases hx : x.relevance < r.relevance
    · simp only [insertRecord, if_pos hx]
      by_cases hr : r.relevance = s
      · have hnone : (x :: xs).filter (fun a => decide (a.relevance = s)) = [] := by
          rw [List.filter_eq_nil_iff]
          intro a ha
          rcases List.mem_cons.mp ha with rfl | ha
          · simp only [decide_eq_true_eq]
            omega
          · have := h.1 a ha
            simp only [decide_eq_true_eq]
            omega
        rw [if_pos hr, List.filter_cons]
        simp [hr, hnone]
      · rw [if_neg hr, List.filter_cons]
        simp [hr]
    · simp only [insertRecord, if_neg hx]
      rw [List.filter_cons, ih h.2, List.filter_cons]
      by_cases hxs : x.relevance = s <;> by_cases hr : r.relevance = s <;>
        simp [hxs, hr]

theorem sortByRelevance_filter (l : List MatchRecord) (s : Int) :
    (sortByRelevance l).filter (fun a => a.relevance = s) =
      l.filter (fun a => a.relevance = s) := by
  have haux : ∀ (l acc : List MatchRecord),
      acc.Pairwise (fun a b => b.relevance ≤ a.relevance) →
      (l.foldl (fun acc r => insertRecord r acc) acc).filter (fun a => a.relevance = s) =
        acc.filter (fun a => a.relevance = s) ++ l.filter (fun a => a.relevance = s) := by
    intro l
    induction l with
    | nil => intro acc _; simp
    | cons x xs ih =>
      intro acc h
      simp only [List.foldl_cons]
      rw [ih (insertRecord x acc) (insertRecord_sorted x acc h),
        insertRecord_filter x s acc h, List.filter_cons]
      by_cases hxs : x.relevance = s
      · simp [hxs]
      · simp [hxs]
  simpa using haux l [] (by simp)

end V2

namespace V2

/-- Unfolding of the result component of findElementsByPattern. -/
theorem findElementsByPattern_fst (o : Oracle) (term : String) :
    (findElementsByPattern o term).1 =
      sortByRelevance
        ((runBatches o (jsLower term) (makeBatches (discoverIds o (jsLower term)))).found.map
          fun p => p.2) := rfl

/-- A successful matchRecordFor writes the element name and the
calculateRelevance score into the record. -/
theorem matchRecordFor_some (q s : String) (e : NDAElement) (r : MatchRecord)
    (h : matchRecordFor q s e = some r) :
    r.name = e.name ∧ r.relevance = calculateRelevance e q r.matchType := by
  simp only [matchRecordFor] at h
  split_ifs at h
  all_goals
    injection h with h2
    refine ⟨by rw [← h2], ?_⟩
    rw [← h2]

/-- Records in the write sequence all carry a relevance produced by
calculateRelevance. -/
theorem writesFor_relevance (o : Oracle) (q : String) (ids : List String) :
    ∀ p ∈ writesFor o q ids, ∃ e : NDAElement,
      p.2.relevance = calculateRelevance e q p.2.matchType := by
  intro p hp
  simp only [writesFor, List.mem_flatMap] at hp
  obtain ⟨s, _, hps⟩ := hp
  simp only [structWrites] at hps
  cases hdet : o.structDetail s with
  | none => rw [hdet] at hps; simp at hps
  | some els =>
    rw [hdet] at hps
    simp only [List.mem_filterMap] at hps
    obtain ⟨e, _, he⟩ := hps
    cases hr : matchRecordFor q s e with
    | none => rw [hr] at he; simp at he
    | some r =>
      rw [hr] at he
      simp only [Option.map_some'] at he
      cases he
      exact ⟨e, (matchRecordFor_some q s e r hr).2⟩

/-- Every record of the final foundElements Map is one of the writes. -/
theorem found_mem_writes (o : Oracle) (term : String) :
    ∀ p ∈ (runBatches o (jsLower term) (makeBatches (discoverIds o (jsLower term)))).found,
      p ∈ writesFor o (jsLower term) (discoverIds o (jsLower term)) := by
  intro p hp
  rw [runBatches_found_eq] at hp
  rcases mem_writeFold _ _ p hp with h | h
  · simp at h
  · exact h

end V2

/-! ### Claim C2: cache lifetime and duplicate fetch avoidance

The structureCache Map of the source is created by a const declaration
inside findElementsByPattern, so its lifetime is one invocation, not the
session: a second retrieval in the same session re-fetches every
structure.  Within one invocation the claim holds (the candidate list is
deduplicated, so each identifier is fetched at most once). -/

/-- Oracle for the cache counterexample: one discoverable structure. -/
def cacheOracle : V2.Oracle :=
  { exactLookup := fun _ => none
    structSearch := fun _ => some [⟨"s1"⟩]
    categoryList := some []
    structDetail := fun s => if s = "s1" then some [⟨"e1", "t", "x"⟩] else none }

/-- C2 (refuted as stated): two batch retrievals for the same identifier
in one session fetch it twice — the cache is per-invocation, so the second
invocation misses it. -/
theorem c2_counterexample :
    ((V2.findElementsByPattern cacheOracle "q").2 ++
        (V2.findElementsByPattern cacheOracle "q").2).count "s1" = 2 ∧
    ¬ (((V2.findElementsByPattern cacheOracle "q").2 ++
        (V2.findElementsByPattern cacheOracle "q").2).count "s1" ≤ 1) := by
  decide

/-- C2 (amended): the cache lives for a single retrieval invocation;
within one invocation each structure identifier is fetched at most once
(the fetch trace of an invocation has no duplicates). -/
theorem c2_cache_amended (o : V2.Oracle) (term : String) :
    (V2.findElementsByPattern o term).2.Nodup := by
  rw [V2.findElementsByPattern_trace]
  exact V2.discoverIds_nodup o _

/-! ### Claim C5: deduplication by element name, last writer wins -/

/-- C5: the aggregated result list contains at most one record per element
name, and the record kept for a name is the last one written during the
scan. -/
theorem c5_dedup_last_writer :
    (∀ (o : V2.Oracle) (term : String),
      ((V2.findElementsByPattern o term).1.map fun r => r.name).Nodup) ∧
    (∀ (o : V2.Oracle) (term : String) (r : V2.MatchRecord),
      r ∈ (V2.findElementsByPattern o term).1 →
      ((V2.writesFor o (jsLower term) (V2.discoverIds o (jsLower term))).filter
          (fun p => p.2.name = r.name)).getLast? = some (r.name, r)) := by
  constructor
  · intro o term
    rw [V2.findElementsByPattern_fst]
    have hperm := (V2.sortByRelevance_perm
      ((V2.runBatches o (jsLower term)
        (makeBatches (V2.discoverIds o (jsLower term)))).found.map fun p => p.2)).map
      (fun r => r.name)
    refine hperm.nodup_iff.mpr ?_
    have hname : ∀ p ∈ (V2.runBatches o (jsLower term)
        (makeBatches (V2.discoverIds o (jsLower term)))).found, p.2.name = p.1 := by
      intro p hp
      exact V2.writesFor_name_eq_key o (jsLower term) _ p (V2.found_mem_writes o term p hp)
    rw [List.map_map]
    have : ((V2.runBatches o (jsLower term)
        (makeBatches (V2.discoverIds o (jsLower term)))).found.map
          ((fun r => r.name) ∘ fun p => p.2)) =
        ((V2.runBatches o (jsLower term)
          (makeBatches (V2.discoverIds o (jsLower term)))).found.map Prod.fst) := by
      apply List.map_congr_left
      intro p hp
      exact hname p hp
    rw [this, V2.runBatches_found_eq]
    exact nodup_keys_writeFold _ [] (by simp)
  · intro o term r hr
    rw [V2.findElementsByPattern_fst] at hr
    have hr2 := (V2.sortByRelevance_perm _).mem_iff.mp hr
    simp only [List.mem_map] at hr2
    obtain ⟨p, hp, hpr⟩ := hr2
    have hname := V2.writesFor_name_eq_key o (jsLower term) _ p (V2.found_mem_writes o term p hp)
    have hnd : (((V2.runBatches o (jsLower term)
        (makeBatches (V2.discoverIds o (jsLower term)))).found).map Prod.fst).Nodup := by
      rw [V2.runBatches_found_eq]
      exact nodup_keys_writeFold _ [] (by simp)
    have hlook : lookupMap (V2.runBatches o (jsLower term)
        (makeBatches (V2.discoverIds o (jsLower term)))).found p.1 = some p.2 := by
      exact lookupMap_of_mem hnd (by rw [← Prod.mk.eta (p := p)] at hp; exact hp)
    rw [V2.runBatches_found_eq, lookupMap_writeFold] at hlook
    have hfilter : (V2.writesFor o (jsLower term) (V2.discoverIds o (jsLower term))).filter
        (fun w => w.2.name = r.name) =
        (V2.writesFor o (jsLower term) (V2.discoverIds o (jsLower term))).filter
        (fun w => w.1 = p.1) := by
      apply List.filter_congr
      intro w hw
      have := V2.writesFor_name_eq_key o (jsLower term) _ w hw
      rw [← this, ← hpr, ← hname]
    rw [hfilter]
    cases hlast : ((V2.writesFor o (jsLower term) (V2.discoverIds o (jsLower term))).filter
        (fun w => w.1 = p.1)).getLast? with
    | none =>
      rw [hlast] at hlook
      simp [Option.elim, lookupMap] at hlook
    | some w =>
      rw [hlast] at hlook
      simp only [Option.elim] at hlook
      have hw2 : w.2 = p.2 := by
        injection hlook
      have hwmem : w ∈ (V2.writesFor o (jsLower term)
          (V2.discoverIds o (jsLower term))).filter (fun w => w.1 = p.1) := by
        obtain ⟨hne, hw⟩ := List.mem_getLast?_eq_getLast (Option.mem_def.mpr hlast)
        rw [hw]
        exact List.getLast_mem hne
      have hw1 : w.1 = p.1 := by
        have := List.of_mem_filter hwmem
        simpa using this
      have hweq : w = (r.name, r) :=
        Prod.ext (by rw [hw1, ← hname, hpr]) (by rw [hw2, hpr])
      rw [hweq]

/-! ### Claim C6: sorted, stable, deterministic aggregation -/

/-- C6: the aggregated output is ordered by weakly descending relevance;
records of equal relevance keep their discovery order (the filtered
subsequence at each score equals that of the unsorted foundElements
values, which are in discovery order); and the aggregation is a pure
function, so rerunning it on the same inputs yields the same output. -/
theorem c6_sorted_stable_deterministic :
    (∀ (o : V2.Oracle) (term : String),
      (V2.findElementsByPattern o term).1.Pairwise
        (fun a b => b.relevance ≤ a.relevance)) ∧
    (∀ (o : V2.Oracle) (term : String) (s : Int),
      (V2.findElementsByPattern o term).1.filter (fun r => r.relevance = s) =
        ((V2.runBatches o (jsLower term)
            (makeBatches (V2.discoverIds o (jsLower term)))).found.map
          fun p => p.2).filter (fun r => r.relevance = s)) ∧
    (∀ (o : V2.Oracle) (term : String),
      V2.findElementsByPattern o term = V2.findElementsByPattern o term) := by
  refine ⟨?_, ?_, fun _ _ => rfl⟩
  · intro o term
    rw [V2.findElementsByPattern_fst]
    exact V2.sortByRelevance_sorted _
  · intro o term s
    rw [V2.findElementsByPattern_fst]
    exact V2.sortByRelevance_filter _ s

/-! ### Claim C10: every emitted record has relevance at least 15 -/

namespace V2

theorem calculateRelevance_ge_fifteen (e : NDAElement) (q : String) (mt : MatchType) :
    (15 : Int) ≤ calculateRelevance e q mt := by
  cases mt <;>
    · simp only [calculateRelevance]
      split_ifs <;> omega

end V2

/-- Demonstration oracle used by concrete witnesses: two discoverable
structures whose elements match the queries alpha and beta in their
descriptions. -/
def demoOracle : V2.Oracle :=
  { exactLookup := fun _ => none
    structSearch := fun q =>
      if q = "alpha" then some [⟨"sA"⟩] else if q = "beta" then some [⟨"sB"⟩] else some []
    categoryList := some []
    structDetail := fun s =>
      if s = "sA" then some [⟨"x1", "t", "the alpha value"⟩, ⟨"x2", "t", "alpha again"⟩]
      else if s = "sB" then some [⟨"y1", "t", "a beta thing"⟩, ⟨"y2", "t", "beta two"⟩]
      else none }

/-- C10: the V2 scorer never returns less than 15 (base tier at least 25,
non-negative bonuses, penalty capped at 10), so every record the fuzzy
scan emits has a strictly positive relevance. -/
theorem c10_positive_scores :
    (∀ (e : NDAElement) (q : String) (mt : V2.MatchType),
      (15 : Int) ≤ V2.calculateRelevance e q mt) ∧
    (∀ (o : V2.Oracle) (term : String) (r : V2.MatchRecord),
      r ∈ (V2.findElementsByPattern o term).1 → (15 : Int) ≤ r.relevance) := by
  refine ⟨V2.calculateRelevance_ge_fifteen, ?_⟩
  intro o term r hr
  rw [V2.findElementsByPattern_fst] at hr
  have hr2 := (V2.sortByRelevance_perm _).mem_iff.mp hr
  simp only [List.mem_map] at hr2
  obtain ⟨p, hp, hpr⟩ := hr2
  obtain ⟨e, he⟩ := V2.writesFor_relevance o (jsLower term) _ p
    (V2.found_mem_writes o term p hp)
  rw [← hpr, he]
  exact V2.calculateRelevance_ge_fifteen e (jsLower term) p.2.matchType

/-- Witness for C10 applied at a concrete search: a record found for the
query alpha has relevance at least 15. -/
theorem c10_witness :
    (15 : Int) ≤ (V2.MatchRecord.mk "x1" "t" "the alpha value" "sA"
      V2.MatchType.description 22).relevance :=
  c10_positive_scores.2 demoOracle "alpha"
    (V2.MatchRecord.mk "x1" "t" "the alpha value" "sA" V2.MatchType.description 22)
    (by decide)

/-- Witness for C5 applied at a concrete search: the record kept for the
name x1 is the last one written for that name. -/
theorem c5_witness :
    ((V2.writesFor demoOracle (jsLower "alpha") (V2.discoverIds demoOracle (jsLower "alpha"))).filter
        (fun p => p.2.name = (V2.MatchRecord.mk "x1" "t" "the alpha value" "sA"
          V2.MatchType.description 22).name)).getLast? =
      some ("x1", V2.MatchRecord.mk "x1" "t" "the alpha value" "sA"
        V2.MatchType.description 22) :=
  c5_dedup_last_writer.2 demoOracle "alpha"
    (V2.MatchRecord.mk "x1" "t" "the alpha value" "sA" V2.MatchType.description 22)
    (by decide)

/-! ### Claim C4: word-boundary matching with singular/plural variants

The source does not escape the query before interpolating it into the
regex, so a query containing a metacharacter can match text in which the
query never occurs as a word at all: the query a.c matches the element
name abc (the dot is a wildcard, and the boundaries hold at both ends).
For queries free of regex metacharacters the interpolated pattern is the
literal word, and the claimed whole-delimited-word characterisation
holds. -/

theorem occursAt_length_le {t w : List Char} {i : Nat} (h : occursAt t w i = true)
    (hi : i ≤ t.length) : i + w.length ≤ t.length := by
  simp only [occursAt, decide_eq_true_eq] at h
  have hl := congrArg List.length h
  simp only [List.length_take, List.length_drop] at hl
  omega

/-- On a dot-free pattern the fragment matcher is the literal prefix
test. -/
theorem matchesPat_eq_take {w : List Char} (h : ∀ c ∈ w, c ≠ '.') :
    ∀ rest : List Char, matchesPat w rest = decide (rest.take w.length = w) := by
  induction w with
  | nil => intro rest; simp [matchesPat]
  | cons p ps ih =>
    intro rest
    cases rest with
    | nil => simp [matchesPat]
    | cons c cs =>
      have hp : p ≠ '.' := h p (List.mem_cons_self _ _)
      have hps : ∀ x ∈ ps, x ≠ '.' := fun x hx => h x (List.mem_cons_of_mem _ hx)
      simp only [matchesPat, patCharMatches, if_neg hp, ih hps, List.length_cons,
        List.take_succ_cons]
      by_cases hpc : p = c
      · simp [hpc]
      · simp only [hpc, decide_eq_true_eq]
        simp [List.cons.injEq]
        exact fun hh => absurd hh.symm hpc

/-- On a dot-free pattern matchesAt is the literal occurrence test. -/
theorem matchesAt_eq_occursAt {t w : List Char} (h : ∀ c ∈ w, c ≠ '.') (i : Nat) :
    matchesAt t w i = occursAt t w i := by
  rw [matchesAt, matchesPat_eq_take h, occursAt]

/-- A word free of regex metacharacters has no dot in its case-folded
form. -/
theorem regexLiteralWord_no_dot {word : String} (h : regexLiteralWord word = true) :
    ∀ c ∈ word.data.map lowerChar, c ≠ '.' := by
  intro c hc hdot
  have h2 := List.all_eq_true.mp h c hc
  rw [hdot] at h2
  simp [regexMeta, List.contains] at h2

/-- Boundary-test characterisation of containsWord on metacharacter-free
words: a (case-folded) literal occurrence of the word inside the text
delimited by a regex boundary on each side. -/
theorem containsWord_iff_of_literal (text word : String)
    (hw : regexLiteralWord word = true) :
    containsWord text word = true ↔
      ∃ i, i + (word.data.map lowerChar).length ≤ (text.data.map lowerChar).length ∧
        occursAt (text.data.map lowerChar) (word.data.map lowerChar) i = true ∧
        boundaryAt (text.data.map lowerChar) i = true ∧
        boundaryAt (text.data.map lowerChar) (i + (word.data.map lowerChar).length) = true := by
  have hml : ∀ i, matchesAt (text.data.map lowerChar) (word.data.map lowerChar) i
      = occursAt (text.data.map lowerChar) (word.data.map lowerChar) i :=
    fun i => matchesAt_eq_occursAt (regexLiteralWord_no_dot hw) i
  constructor
  · intro h
    simp only [containsWord, List.any_eq_true, List.mem_range] at h
    obtain ⟨i, hi, hcond⟩ := h
    rw [hml i] at hcond
    simp only [Bool.and_eq_true] at hcond
    exact ⟨i, occursAt_length_le hcond.1.1 (by omega), hcond.1.1, hcond.1.2, hcond.2⟩
  · intro ⟨i, hle, hocc, hb1, hb2⟩
    simp only [containsWord, List.any_eq_true, List.mem_range]
    refine ⟨i, by omega, ?_⟩
    rw [hml i]
    simp only [Bool.and_eq_true]
    exact ⟨⟨hocc, hb1⟩, by simpa using hb2⟩

/-- C4 (refuted as stated): the unescaped query a.c, in which the dot is
a regex wildcard, matches the element name abc — the scan emits a record
for it — although the query does not occur in the text at all, let alone
as a delimited whole word. -/
theorem c4_counterexample :
    containsWord "abc" "a.c" = true ∧
    jsIncludes "abc" "a.c" = false ∧
    (V2.matchRecordFor "a.c" "s" ⟨"abc", "t", ""⟩).isSome = true := by
  decide

/-- C4 (amended): for queries free of regex metacharacters — the query
is interpolated into the regex unescaped, so only then is the pattern the
literal word — a match requires the query or its singular/plural variant
to occur as a whole delimited word (the boundary characterisation); in
particular tap does not match the word tapping, while tap matches a text
whose stored word is exactly taps (via the plural variant), and taps
matches a text whose stored word is exactly tap (via the singular
variant). -/
theorem c4_word_boundary_amended :
    (∀ text word : String, regexLiteralWord word = true →
      (containsWord text word = true ↔
        ∃ i, i + (word.data.map lowerChar).length ≤ (text.data.map lowerChar).length ∧
          occursAt (text.data.map lowerChar) (word.data.map lowerChar) i = true ∧
          boundaryAt (text.data.map lowerChar) i = true ∧
          boundaryAt (text.data.map lowerChar) (i + (word.data.map lowerChar).length) = true)) ∧
    V2.searchWords "tap" = ["tap", "taps"] ∧
    containsWord "finger tapping test" "tap" = false ∧
    ((V2.searchWords "tap").any fun w => containsWord "finger tapping test" w) = false ∧
    ((V2.searchWords "tap").any fun w => containsWord "counts taps daily" w) = true ∧
    ((V2.searchWords "taps").any fun w => containsWord "counts tap daily" w) = true :=
  ⟨containsWord_iff_of_literal, by decide, by decide, by decide, by decide, by decide⟩

/-- Witness for C4 (amended): the characterisation applied to the
metacharacter-free word taps against a text storing exactly that word. -/
theorem c4_witness :
    containsWord "counts taps daily" "taps" = true ↔
      ∃ i, i + ("taps".data.map lowerChar).length ≤
          ("counts taps daily".data.map lowerChar).length ∧
        occursAt ("counts taps daily".data.map lowerChar) ("taps".data.map lowerChar) i = true ∧
        boundaryAt ("counts taps daily".data.map lowerChar) i = true ∧
        boundaryAt ("counts taps daily".data.map lowerChar)
          (i + ("taps".data.map lowerChar).length) = true :=
  c4_word_boundary_amended.1 "counts taps daily" "taps" (by decide)

namespace V2

/-! ### The V2 orchestrator handlePartialSearch (part_000 lines 869-949)

The component state consists of the six useState cells the search flow
touches.  An execution of handlePartialSearch is modelled as the ordered
list of state writes (set calls) it performs: the five synchronous writes
before the first await, then the writes of the branch the service
responses select, then the setLoading(false) of the finally clause.
Applying the writes in order to a state gives the sequential semantics;
claim C8 additionally considers interleavings of two write lists. -/

/-- The component state cells used by the search flow. -/
structure UIState where
  loading : Bool
  error : Option String
  element : Option ElementDetail
  matchingElements : List MatchRecord
  isPartialSearch : Bool
  recentSearches : List String
deriving DecidableEq

/-- The no-match error message (line 906), echoing the untrimmed query. -/
def noMatchMsg (searchTerm : String) : String :=
  "No data elements found containing \"" ++ searchTerm ++ "\""

/-- The five synchronous writes at the top of handlePartialSearch
(lines 872-876). -/
def syncWrites : List (UIState → UIState) :=
  [fun st => { st with loading := true },
   fun st => { st with error := none },
   fun st => { st with isPartialSearch := true },
   fun st => { st with matchingElements := [] },
   fun st => { st with element := none }]

/-- Guarded update of the recent-search history (lines 890-894 and
925-932): prepend when absent, keeping the ten most recent. -/
def recentWrite (term : String) : UIState → UIState := fun st =>
  if term ∈ st.recentSearches then st
  else { st with recentSearches := (term :: st.recentSearches).take 10 }

/-- The setLoading(false) of the finally clause (line 942). -/
def finallyWrite : UIState → UIState := fun st => { st with loading := false }

/-- The writes of the single-result auto-promotion (lines 914-936): fetch
the lone result by name; on success display it and record its name in the
history, on failure change nothing further. -/
def autoSelectWrites (o : Oracle) (r : MatchRecord) : List (UIState → UIState) :=
  match o.exactLookup r.name with
  | some data =>
    [fun st => { st with element := some data },
     fun st => { st with isPartialSearch := false },
     recentWrite r.name]
  | none => []

/-- The writes handlePartialSearch performs after its first await, by the
branch the service responses select: exact hit (lines 884-898); empty
fuzzy result (lines 905-909); fuzzy results, with the single-result
auto-promotion (lines 911-937). -/
def asyncWrites (o : Oracle) (q : String) : List (UIState → UIState) :=
  let t := jsTrim q
  match o.exactLookup t with
  | some data =>
    [fun st => { st with element := some data },
     fun st => { st with isPartialSearch := false },
     recentWrite t,
     fun st => { st with loading := false }]
  | none =>
    match (findElementsByPattern o t).1 with
    | [] =>
      [fun st => { st with error := some (noMatchMsg q) },
       fun st => { st with loading := false }]
    | [r] =>
      (fun st => { st with matchingElements := [r] }) :: autoSelectWrites o r
    | r :: r2 :: rest =>
      [fun st => { st with matchingElements := r :: r2 :: rest }]

/-- The full ordered write list of one handlePartialSearch run; a blank
query returns before any write (line 870). -/
def hpsEvents (o : Oracle) (q : String) : List (UIState → UIState) :=
  if jsTrim q = "" then []
  else syncWrites ++ (asyncWrites o q ++ [finallyWrite])

/-- Application of a write list to a state, in order. -/
def applyEvents (st : UIState) (evs : List (UIState → UIState)) : UIState :=
  evs.foldl (fun s f => f s) st

/-- Model of handlePartialSearch as a state transformer (its sequential,
non-interleaved execution). -/
def handlePartialSearch (st : UIState) (q : String) (o : Oracle) : UIState :=
  applyEvents st (hpsEvents o q)

/-- Model of handleSearch (lines 946-949): guard on a blank query, then
delegate to handlePartialSearch. -/
def handleSearch (st : UIState) (q : String) (o : Oracle) : UIState :=
  if jsTrim q = "" then st else handlePartialSearch st q o

/-- One network call of the search flow. -/
inductive FetchCall where
  | elementF (name : String)
  | searchF (q : String)
  | categoryF
  | structF (shortName : String)
deriving DecidableEq

/-- The ordered fetches one handlePartialSearch run issues: the exact
lookup, then on a miss the two discovery calls, the structure-detail
fetches of the batch loop, and the auto-promotion fetch when exactly one
record was found. -/
def hpsFetches (o : Oracle) (q : String) : List FetchCall :=
  if jsTrim q = "" then []
  else
    let t := jsTrim q
    FetchCall.elementF t ::
    (match o.exactLookup t with
     | some _ => []
     | none =>
       [FetchCall.searchF (jsLower t), FetchCall.categoryF] ++
       ((findElementsByPattern o t).2.map FetchCall.structF) ++
       (match (findElementsByPattern o t).1 with
        | [r] => [FetchCall.elementF r.name]
        | _ => []))

/-- The displayed outcome of a search: every state cell except the
recent-search history. -/
def displayProj (st : UIState) :
    Bool × Option String × Option ElementDetail × List MatchRecord × Bool :=
  (st.loading, st.error, st.element, st.matchingElements, st.isPartialSearch)

/-- Interleavings of two write sequences that preserve the internal order
of each. -/
inductive IsMerge : List (UIState → UIState) → List (UIState → UIState) →
    List (UIState → UIState) → Prop where
  | nil : IsMerge [] [] []
  | left {xs ys zs x} : IsMerge xs ys zs → IsMerge (x :: xs) ys (x :: zs)
  | right {xs ys zs y} : IsMerge xs ys zs → IsMerge xs (y :: ys) (y :: zs)

theorem isMerge_nil_right : ∀ xs, IsMerge xs [] xs := by
  intro xs
  induction xs with
  | nil => exact IsMerge.nil
  | cons x xs ih => exact IsMerge.left ih

theorem isMerge_append_right (l : List (UIState → UIState))
    {xs ys zs : List (UIState → UIState)} (h : IsMerge xs ys zs) :
    IsMerge xs (l ++ ys) (l ++ zs) := by
  induction l with
  | nil => exact h
  | cons y l ih => exact IsMerge.right ih

theorem isMerge_append_left (l : List (UIState → UIState))
    {xs ys zs : List (UIState → UIState)} (h : IsMerge xs ys zs) :
    IsMerge (l ++ xs) ys (l ++ zs) := by
  induction l with
  | nil => exact h
  | cons x l ih => exact IsMerge.left ih

/-- The schedule in which search B runs to completion while search A is
suspended at its first await, and A's remaining writes land afterwards. -/
def overlapSchedule (o : Oracle) (qa qb : String) : List (UIState → UIState) :=
  syncWrites ++ (hpsEvents o qb ++ (asyncWrites o qa ++ [finallyWrite]))

theorem overlapSchedule_isMerge (o : Oracle) (qa qb : String) (ha : jsTrim qa ≠ "") :
    IsMerge (hpsEvents o qa) (hpsEvents o qb) (overlapSchedule o qa qb) := by
  unfold overlapSchedule
  rw [hpsEvents, if_neg ha]
  refine isMerge_append_left syncWrites ?_
  have h0 : IsMerge (asyncWrites o qa ++ [finallyWrite]) []
      (asyncWrites o qa ++ [finallyWrite]) := isMerge_nil_right _
  have h1 := isMerge_append_right (hpsEvents o qb) h0
  simpa using h1

end V2

namespace V2

/-! ### The displayed outcome of a sequential search run is a function of
the query and the service responses alone -/

theorem recentWrite_loading (t : String) (st : UIState) :
    (recentWrite t st).loading = st.loading := by
  unfold recentWrite; split <;> rfl

theorem recentWrite_error (t : String) (st : UIState) :
    (recentWrite t st).error = st.error := by
  unfold recentWrite; split <;> rfl

theorem recentWrite_element (t : String) (st : UIState) :
    (recentWrite t st).element = st.element := by
  unfold recentWrite; split <;> rfl

theorem recentWrite_matchingElements (t : String) (st : UIState) :
    (recentWrite t st).matchingElements = st.matchingElements := by
  unfold recentWrite; split <;> rfl

theorem recentWrite_isPartialSearchFlag (t : String) (st : UIState) :
    (recentWrite t st).isPartialSearch = st.isPartialSearch := by
  unfold recentWrite; split <;> rfl

/-- Sequential runs of handlePartialSearch overwrite every displayed
state cell: the displayed outcome does not depend on the starting
state. -/
theorem display_determined (o : Oracle) (q : String) (hq : jsTrim q ≠ "") :
    ∃ d, ∀ st : UIState, displayProj (handlePartialSearch st q o) = d := by
  cases hex : o.exactLookup (jsTrim q) with
  | some data =>
    refine ⟨(false, none, some data, [], false), fun st => ?_⟩
    simp only [handlePartialSearch, hpsEvents, if_neg hq, asyncWrites, hex, applyEvents,
      syncWrites, finallyWrite, List.foldl_cons, List.foldl_nil, List.cons_append,
      List.nil_append, List.foldl_append, displayProj]
    simp [recentWrite_loading, recentWrite_error, recentWrite_element,
      recentWrite_matchingElements, recentWrite_isPartialSearchFlag]
  | none =>
    cases hres : (findElementsByPattern o (jsTrim q)).1 with
    | nil =>
      refine ⟨(false, some (noMatchMsg q), none, [], true), fun st => ?_⟩
      simp only [handlePartialSearch, hpsEvents, if_neg hq, asyncWrites, hex, hres, applyEvents,
        syncWrites, finallyWrite, List.foldl_cons, List.foldl_nil, List.cons_append,
        List.nil_append, List.foldl_append, displayProj]
    | cons r rest =>
      cases rest with
      | nil =>
        cases hex2 : o.exactLookup r.name with
        | some data =>
          refine ⟨(false, none, some data, [r], false), fun st => ?_⟩
          simp only [handlePartialSearch, hpsEvents, if_neg hq, asyncWrites, hex, hres,
            autoSelectWrites, hex2, applyEvents, syncWrites, finallyWrite, List.foldl_cons,
            List.foldl_nil, List.cons_append, List.nil_append, List.foldl_append, displayProj]
          simp [recentWrite_loading, recentWrite_error, recentWrite_element,
            recentWrite_matchingElements, recentWrite_isPartialSearchFlag]
        | none =>
          refine ⟨(false, none, none, [r], true), fun st => ?_⟩
          simp only [handlePartialSearch, hpsEvents, if_neg hq, asyncWrites, hex, hres,
            autoSelectWrites, hex2, applyEvents, syncWrites, finallyWrite, List.foldl_cons,
            List.foldl_nil, List.cons_append, List.nil_append, List.foldl_append, displayProj]
      | cons r2 rest2 =>
        refine ⟨(false, none, none, r :: r2 :: rest2, true), fun st => ?_⟩
        simp only [handlePartialSearch, hpsEvents, if_neg hq, asyncWrites, hex, hres, applyEvents,
          syncWrites, finallyWrite, List.foldl_cons, List.foldl_nil, List.cons_append,
          List.nil_append, List.foldl_append, displayProj]

end V2

/-! ### Shared concrete fixtures for the orchestrator claims -/

/-- Oracle on which every lookup misses and discovery finds nothing. -/
def emptyOracle : V2.Oracle :=
  { exactLookup := fun _ => none
    structSearch := fun _ => some []
    categoryList := some []
    structDetail := fun _ => none }

/-- A state with history and a leftover error, to exhibit what a blank
query must leave untouched. -/
def sampleState : V2.UIState :=
  { loading := false, error := some "previous failure", element := none
    matchingElements := [], isPartialSearch := false, recentSearches := ["prior"] }

/-- A state with empty history, for the no-match history counterexample. -/
def freshState : V2.UIState :=
  { loading := false, error := none, element := none
    matchingElements := [], isPartialSearch := false, recentSearches := [] }

/-! ### Claim C9: a blank or whitespace query is a no-op -/

/-- C9: when the query trims to the empty string, both search entry
points return with the state unchanged and no network fetch issued. -/
theorem c9_blank_query_noop (st : V2.UIState) (q : String) (o : V2.Oracle)
    (h : jsTrim q = "") :
    V2.handleSearch st q o = st ∧
    V2.handlePartialSearch st q o = st ∧
    V2.hpsFetches o q = [] := by
  refine ⟨?_, ?_, ?_⟩ <;>
    simp [V2.handleSearch, V2.handlePartialSearch, V2.hpsEvents, V2.hpsFetches,
      V2.applyEvents, h]

/-- Witness for C9 at a whitespace query and a populated state. -/
theorem c9_witness :
    V2.handleSearch sampleState "   " emptyOracle = sampleState ∧
    V2.handlePartialSearch sampleState "   " emptyOracle = sampleState ∧
    V2.hpsFetches emptyOracle "   " = [] :=
  c9_blank_query_noop sampleState "   " emptyOracle (by decide)

/-! ### Claim C3: empty fuzzy result

The search does end with the no-match error naming the literal query, but
the query is NOT recorded into the recent-search history on that path:
the source only updates recentSearches on the exact-hit path (lines
890-894) and inside the single-result auto-promotion (lines 925-932). -/

/-- C3 (refuted as stated): an empty-result search reaches the no-match
message, yet the query is absent from the recent-search history
afterwards. -/
theorem c3_counterexample :
    (V2.handlePartialSearch freshState "zzz" emptyOracle).error =
      some (V2.noMatchMsg "zzz") ∧
    "zzz" ∉ (V2.handlePartialSearch freshState "zzz" emptyOracle).recentSearches := by
  decide

/-- C3 (amended): an exact miss whose fuzzy aggregation is empty ends
with loading cleared, the no-match error echoing the literal query, no
element, no matches — and the recent-search history unchanged (the query
is not recorded). -/
theorem c3_nomatch_amended (st : V2.UIState) (q : String) (o : V2.Oracle)
    (hq : jsTrim q ≠ "") (hmiss : o.exactLookup (jsTrim q) = none)
    (hempty : (V2.findElementsByPattern o (jsTrim q)).1 = []) :
    V2.handlePartialSearch st q o =
      { loading := false, error := some (V2.noMatchMsg q), element := none,
        matchingElements := [], isPartialSearch := true,
        recentSearches := st.recentSearches } ∧
    ∃ pre post : String, V2.noMatchMsg q = pre ++ q ++ post := by
  constructor
  · simp only [V2.handlePartialSearch, V2.hpsEvents, if_neg hq, V2.asyncWrites, hmiss, hempty,
      V2.applyEvents, V2.syncWrites, V2.finallyWrite]
    rfl
  · exact ⟨"No data elements found containing \"", "\"", rfl⟩

/-- Witness for C3 (amended) at a populated state: the history keeps its
prior content and the error echoes the query. -/
theorem c3_witness :
    V2.handlePartialSearch sampleState "zzz" emptyOracle =
      { loading := false, error := some (V2.noMatchMsg "zzz"), element := none,
        matchingElements := [], isPartialSearch := true,
        recentSearches := sampleState.recentSearches } ∧
    ∃ pre post : String, V2.noMatchMsg "zzz" = pre ++ "zzz" ++ post :=
  c3_nomatch_amended sampleState "zzz" emptyOracle (by decide) (by decide) (by decide)

/-! ### Claim C8: superseding of in-flight searches

The source has no generation or epoch mechanism: nothing tags an
in-flight search or discards stale results.  In the interleaving where a
newer search B completes while an older search A is suspended at its
first await, A's late writes land last and the displayed match list is
A's, not B's — refuting the claim.  What does hold is that the displayed
outcome of a search run whose writes are not interleaved with another
run's is a function of its own query and the service responses alone. -/

/-- C8 (refuted as stated): a valid interleaving of searches A(alpha) and
B(beta) — B starts while A is in flight and runs to completion first —
leaves A's match list displayed, which differs from B's. -/
theorem c8_counterexample :
    V2.IsMerge (V2.hpsEvents demoOracle "alpha") (V2.hpsEvents demoOracle "beta")
      (V2.overlapSchedule demoOracle "alpha" "beta") ∧
    (V2.applyEvents freshState (V2.overlapSchedule demoOracle "alpha" "beta")).matchingElements =
      (V2.findElementsByPattern demoOracle "alpha").1 ∧
    (V2.findElementsByPattern demoOracle "alpha").1 ≠
      (V2.findElementsByPattern demoOracle "beta").1 :=
  ⟨V2.overlapSchedule_isMerge demoOracle "alpha" "beta" (by decide), by decide, by decide⟩

/-- C8 (amended): the displayed outcome of a non-interleaved
handlePartialSearch run — loading flag, error, element, match list,
partial flag — is determined by the query and the service responses
alone, independent of whatever state an earlier search left behind;
superseding is only guaranteed when the runs do not overlap. -/
theorem c8_supersede_amended (o : V2.Oracle) (q : String) (st1 st2 : V2.UIState)
    (hq : jsTrim q ≠ "") :
    V2.displayProj (V2.handlePartialSearch st1 q o) =
      V2.displayProj (V2.handlePartialSearch st2 q o) := by
  obtain ⟨d, hd⟩ := V2.display_determined o q hq
  rw [hd st1, hd st2]

/-- Witness for C8 (amended): the beta search displays the same outcome
from two different starting states. -/
theorem c8_witness :
    V2.displayProj (V2.handlePartialSearch sampleState "beta" demoOracle) =
      V2.displayProj (V2.handlePartialSearch freshState "beta" demoOracle) :=
  c8_supersede_amended demoOracle "beta" sampleState freshState (by decide)

/-- Witness for C1 (amended): an exact case-insensitive match scores the
sentinel, and a short non-exact query scores below it. -/
theorem c1_witness :
    V1.calculateRelevance ⟨"Taps", "t", "d"⟩ "tAPs" = 1000 ∧
    V1.calculateRelevance ⟨"abc", "t", "d"⟩ "ab" < 1000 :=
  ⟨c1_sentinel_amended.1 ⟨"Taps", "t", "d"⟩ "tAPs" (by decide),
   c1_sentinel_amended.2 ⟨"abc", "t", "d"⟩ "ab" (by decide) (by decide)⟩
